import Mathlib

/-!
# Verification of the minigrep library

A shallow embedding of `src/lib.rs` of the minigrep command-line substring
search tool, together with proofs of its specified properties.

Strings are modelled as lists of characters (`Str`).  Rust's
`str::contains` is `strContains`, `str::lines` is `lines` (splitting on
line feed, stripping one trailing carriage return from a line-feed
terminated line, and not producing a final empty line for a trailing line
feed), and `str::to_lowercase` is `toLowercase` (per-character ASCII
lowercasing, the fragment of Rust's case folding the contract fixes).
The process environment is a partial map from variable names to values,
and the file system a partial map from paths to contents; `run` returns
the sequence of lines printed to standard output.
-/

namespace Minigrep

/-- Strings, modelled as lists of characters. -/
abbrev Str := List Char

/-- Models Rust `hay.contains(needle)`: `needle` occurs in `hay` as a
contiguous substring (the empty needle always matches). -/
def strContains : Str → Str → Bool
  | [], needle => needle.isEmpty
  | c :: t, needle => needle.isPrefixOf (c :: t) || strContains t needle

/-- Strip one leading carriage return from a REVERSED line accumulator;
this models Rust `lines()` stripping one trailing `\r` from a line-feed
terminated line. -/
def stripRevCr : Str → Str
  | [] => []
  | c :: t => if c = '\r' then t else c :: t

/-- Strip one trailing carriage return from a line. -/
def dropLastCr (l : Str) : Str := (stripRevCr l.reverse).reverse

/-- Worker for `lines`: `cur` is the current line accumulated in reverse. -/
def linesGo : Str → Str → List Str
  | [], cur => if cur.isEmpty then [] else [cur.reverse]
  | c :: rest, cur =>
    if c = '\n' then (stripRevCr cur).reverse :: linesGo rest []
    else linesGo rest (c :: cur)

/-- Models Rust `contents.lines()`: split at `\n`, strip one trailing `\r`
from each `\n`-terminated line, keep a final unterminated line, and yield
nothing extra for a trailing `\n`. -/
def lines (s : Str) : List Str := linesGo s []

/-- Models Rust `to_lowercase` on the ASCII fragment: lowercase each
character with the host's `Char.toLower`. -/
def toLowercase (s : Str) : Str := s.map Char.toLower

/-- Models `search` of `src/lib.rs`:
`contents.lines().filter(|line| line.contains(query)).collect()`. -/
def search (query contents : Str) : List Str :=
  (lines contents).filter (fun line => strContains line query)

/-- Models `search_case_intensive` of `src/lib.rs`: lowercase the query
once, then keep the lines whose lowercased copy contains it. -/
def search_case_intensive (query contents : Str) : List Str :=
  let query := toLowercase query
  (lines contents).filter (fun line => strContains (toLowercase line) query)

/-- ASCII uppercase letter (code point 65–90). -/
def isAsciiUpper (c : Char) : Bool := 65 ≤ c.toNat && c.toNat ≤ 90

/-- ASCII lowercase letter (code point 97–122). -/
def isAsciiLower (c : Char) : Bool := 97 ≤ c.toNat && c.toNat ≤ 122

/-- ASCII alphabetic character: the letters the case-folding contract of
the spec fixes (every ASCII letter has a case variant). -/
def isAsciiLetter (c : Char) : Bool := isAsciiUpper c || isAsciiLower c

/-- The configuration record of `src/lib.rs`. -/
structure Config where
  query : Str
  file_path : Str
  ignore_case : Bool
deriving DecidableEq, Repr

/-- The two distinct error results of `Config::build`.  In the source they
are the strings `Didn't get a query string` and `Didn't get a file path`. -/
inductive ConfigError
  | MissingQuery
  | MissingFilePath
deriving DecidableEq, Repr

/-- The name of the environment variable inspected by `Config::build`. -/
def ignoreCaseKey : Str := "IGNORE_CASE".data

/-- Models `Config::build`: the argument iterator is a list; the process
environment is a partial map from variable names to values.  Element 0 is
pulled and discarded, element 1 becomes the query (else `MissingQuery`),
element 2 becomes the file path (else `MissingFilePath`); `ignore_case`
is `env::var("IGNORE_CASE").is_ok()`, i.e. whether the variable is set. -/
def Config.build (args : List Str) (env : Str → Option Str) :
    Except ConfigError Config :=
  match args.tail with
  | [] => .error .MissingQuery
  | query :: rest =>
    match rest with
    | [] => .error .MissingFilePath
    | file_path :: _ =>
      .ok { query := query, file_path := file_path,
            ignore_case := (env ignoreCaseKey).isSome }

/-- The error result of `run`: the file could not be read. -/
inductive RunError
  | FileReadError
deriving DecidableEq, Repr

/-- Models `run`: the file system is a partial map from paths to contents
(`none` models a failing `fs::read_to_string`).  On success the returned
list is the sequence of lines printed to standard output, in order. -/
def run (fs : Str → Option Str) (config : Config) :
    Except RunError (List Str) :=
  match fs config.file_path with
  | none => .error .FileReadError
  | some contents =>
    if !config.ignore_case then .ok (search config.query contents)
    else .ok (search_case_intensive config.query contents)

/-! ## Helper lemmas about characters -/

theorem char_toNat_inj {c d : Char} (h : c.toNat = d.toNat) : c = d :=
  Char.ext (UInt32.eq_of_toBitVec_eq (BitVec.eq_of_toNat_eq h))

theorem toNat_ofNat_of_bounds {n : ℕ} (h1 : 97 ≤ n) (h2 : n ≤ 122) :
    (Char.ofNat n).toNat = n := by
  have hv : n.isValidChar := Or.inl (by omega)
  rw [Char.ofNat, dif_pos hv]
  have hlt : n < 2 ^ 32 := by omega
  simp [Char.ofNatAux, Char.toNat, UInt32.toNat, BitVec.toNat_ofNat]

theorem toLower_toNat_of_upper {c : Char} (h65 : 65 ≤ c.toNat)
    (h90 : c.toNat ≤ 90) : (Char.toLower c).toNat = c.toNat + 32 := by
  unfold Char.toLower
  rw [if_pos ⟨h65, h90⟩]
  exact toNat_ofNat_of_bounds (by omega) (by omega)

theorem toLower_eq_self_of_not_upper {c : Char}
    (h : ¬(65 ≤ c.toNat ∧ c.toNat ≤ 90)) : Char.toLower c = c := by
  unfold Char.toLower
  rw [if_neg h]

theorem not_upper_of_not_letter {c : Char} (h : isAsciiLetter c = false) :
    ¬(65 ≤ c.toNat ∧ c.toNat ≤ 90) := by
  simp [isAsciiLetter, isAsciiUpper, isAsciiLower] at h
  omega

theorem toLower_eq_iff {c d : Char} (hd : isAsciiLetter d = false) :
    Char.toLower c = d ↔ c = d := by
  constructor
  · intro h
    by_cases hc : 65 ≤ c.toNat ∧ c.toNat ≤ 90
    · exfalso
      have h1 : (Char.toLower c).toNat = c.toNat + 32 :=
        toLower_toNat_of_upper hc.1 hc.2
      rw [h] at h1
      simp [isAsciiLetter, isAsciiUpper, isAsciiLower] at hd
      omega
    · rw [toLower_eq_self_of_not_upper hc] at h
      exact h
  · rintro rfl
    exact toLower_eq_self_of_not_upper (not_upper_of_not_letter hd)

/-! ## Helper lemmas about `strContains` -/

theorem strContains_iff (hay needle : Str) :
    strContains hay needle = true ↔ needle <:+: hay := by
  induction hay with
  | nil =>
    simp only [strContains, List.isEmpty_iff]
    constructor
    · rintro rfl
      exact List.nil_infix
    · intro h
      exact List.sublist_nil.mp h.sublist
  | cons c t ih =>
    simp only [strContains, Bool.or_eq_true, List.isPrefixOf_iff_prefix, ih]
    exact List.infix_cons_iff.symm

theorem strContains_nil_needle (l : Str) : strContains l [] = true := by
  cases l <;> simp [strContains, List.isPrefixOf]

theorem strContains_mono_lower {q l : Str} (h : strContains l q = true) :
    strContains (toLowercase l) (toLowercase q) = true := by
  rw [strContains_iff] at h ⊢
  exact h.map Char.toLower

/-! ## Helper lemmas about `lines` -/

theorem linesGo_append (l : Str) (h : '\n' ∉ l) :
    ∀ s cur, linesGo (l ++ s) cur = linesGo s (l.reverse ++ cur) := by
  induction l with
  | nil => intro s cur; simp
  | cons c t ih =>
    intro s cur
    have hc : ¬(c = '\n') := fun hcn => h (hcn ▸ List.mem_cons_self c t)
    have ht : '\n' ∉ t := fun hm => h (List.mem_cons_of_mem _ hm)
    simp only [List.cons_append, linesGo, if_neg hc, List.append_eq]
    rw [ih ht]
    simp [List.reverse_cons, List.append_assoc]

theorem lines_nil : lines ([] : Str) = [] := rfl

theorem lines_append_nl (l rest : Str) (h : '\n' ∉ l) :
    lines (l ++ '\n' :: rest) = dropLastCr l :: lines rest := by
  unfold lines
  rw [linesGo_append l h]
  simp [linesGo, dropLastCr]

theorem dropLastCr_of_no_cr (l : Str) (h : '\r' ∉ l) : dropLastCr l = l := by
  unfold dropLastCr
  cases hr : l.reverse with
  | nil =>
    rw [List.reverse_eq_nil_iff] at hr
    subst hr
    rfl
  | cons c t =>
    have hcl : c ∈ l := List.mem_reverse.mp (hr ▸ List.mem_cons_self c t)
    have hc : ¬(c = '\r') := fun hcr => h (hcr ▸ hcl)
    simp only [stripRevCr, if_neg hc]
    rw [← hr, List.reverse_reverse]

theorem dropLastCr_append_cr (l : Str) : dropLastCr (l ++ ['\r']) = l := by
  unfold dropLastCr
  simp [stripRevCr]

theorem lines_keep_last (l : Str) (hne : l ≠ []) (h : '\n' ∉ l) :
    lines l = [l] := by
  have h0 : lines (l ++ []) = linesGo [] (l.reverse ++ []) :=
    linesGo_append l h [] []
  rw [List.append_nil] at h0
  rw [h0]
  simp [linesGo, List.isEmpty_iff, List.reverse_eq_nil_iff, hne]

theorem mem_stripRevCr {c' : Char} {l : Str} (h : c' ∈ stripRevCr l) :
    c' ∈ l := by
  cases l with
  | nil => simp [stripRevCr] at h
  | cons c t =>
    by_cases hc : c = '\r'
    · subst hc
      simp only [stripRevCr, if_pos rfl] at h
      exact List.mem_cons_of_mem _ h
    · simpa only [stripRevCr, if_neg hc] using h

theorem linesGo_no_nl (s : Str) :
    ∀ cur, '\n' ∉ cur → ∀ l ∈ linesGo s cur, '\n' ∉ l := by
  induction s with
  | nil =>
    intro cur hcur l hl
    by_cases hemp : cur.isEmpty = true
    · simp [linesGo, hemp] at hl
    · simp only [linesGo, if_neg hemp, List.mem_singleton] at hl
      subst hl
      simpa [List.mem_reverse] using hcur
  | cons c rest ih =>
    intro cur hcur l hl
    by_cases hc : c = '\n'
    · subst hc
      simp only [linesGo, if_pos rfl] at hl
      cases hl with
      | head =>
        intro hmem
        exact hcur (mem_stripRevCr (List.mem_reverse.mp hmem))
      | tail _ h1 => exact ih [] (by simp) l h1
    · simp only [linesGo, if_neg hc] at hl
      refine ih (c :: cur) ?_ l hl
      intro hmem
      rcases List.mem_cons.mp hmem with h1 | h1
      · exact hc h1.symm
      · exact hcur h1

theorem mem_lines_no_nl (s : Str) {l : Str} (hl : l ∈ lines s) : '\n' ∉ l :=
  linesGo_no_nl s [] (by simp) l hl

/-! ## Helper lemmas about lowercasing -/

theorem toLowercase_eq_self {q : Str} (h : ∀ c ∈ q, isAsciiLetter c = false) :
    toLowercase q = q := by
  unfold toLowercase
  induction q with
  | nil => rfl
  | cons c t ih =>
    have hc : Char.toLower c = c :=
      toLower_eq_self_of_not_upper
        (not_upper_of_not_letter (h c (List.mem_cons_self c t)))
    simp only [List.map_cons, hc, List.cons.injEq, true_and]
    exact ih (fun d hd => h d (List.mem_cons_of_mem _ hd))

theorem eq_of_toLowercase_eq {q m : Str} (h : ∀ c ∈ q, isAsciiLetter c = false)
    (hm : toLowercase m = q) : m = q := by
  induction m generalizing q with
  | nil => simpa [toLowercase] using hm
  | cons c t ih =>
    unfold toLowercase at hm
    rw [List.map_cons] at hm
    cases q with
    | nil => simp at hm
    | cons d u =>
      rw [List.cons.injEq] at hm
      obtain ⟨h1, h2⟩ := hm
      have hd : c = d :=
        (toLower_eq_iff (h d (List.mem_cons_self d u))).mp h1
      rw [List.cons.injEq]
      exact ⟨hd, ih (fun e he => h e (List.mem_cons_of_mem _ he)) h2⟩

theorem strContains_toLowercase {q : Str} (h : ∀ c ∈ q, isAsciiLetter c = false)
    (l : Str) : strContains (toLowercase l) q = strContains l q := by
  rw [Bool.eq_iff_iff, strContains_iff, strContains_iff]
  constructor
  · rintro ⟨s, t, hst⟩
    have hmap : toLowercase l = s ++ (q ++ t) := by
      rw [← hst, List.append_assoc]
    obtain ⟨l₁, l₂, rfl, hm1, hm2⟩ := List.map_eq_append_iff.mp hmap
    obtain ⟨m, l₃, rfl, hm3, hm4⟩ := List.map_eq_append_iff.mp hm2
    have hmq : m = q := eq_of_toLowercase_eq h hm3
    subst hmq
    exact ⟨l₁, l₃, by rw [List.append_assoc]⟩
  · rintro ⟨s, t, hst⟩
    refine ⟨toLowercase s, toLowercase t, ?_⟩
    have : toLowercase (s ++ q ++ t) = toLowercase l := by rw [hst]
    rw [← this]
    simp only [toLowercase, List.map_append]
    rw [show (List.map Char.toLower q) = q from toLowercase_eq_self h]

/-! ## Claim theorems -/

/-- Claim C1: for every corpus `C` and query `q`, `search q C` returns
exactly the lines of `C` containing `q` as a contiguous substring: the
result is a subsequence of the corpus's lines (original order, each line
at most once per its occurrence in the corpus), every returned line
contains `q`, every corpus line containing `q` is returned, and a
matching line occurs in the result exactly as often as in the corpus. -/
theorem search_exact (q C : Str) :
    (search q C).Sublist (lines C) ∧
    (∀ l ∈ search q C, q <:+: l) ∧
    (∀ l ∈ lines C, q <:+: l → l ∈ search q C) ∧
    (∀ l : Str, q <:+: l → (search q C).count l = (lines C).count l) := by
  refine ⟨List.filter_sublist _, ?_, ?_, ?_⟩
  · intro l hl
    exact (strContains_iff l q).mp (List.mem_filter.mp hl).2
  · intro l hl hq
    exact List.mem_filter.mpr ⟨hl, (strContains_iff l q).mpr hq⟩
  · intro l hq
    exact List.count_filter ((strContains_iff l q).mpr hq)

/-- Witness for C1 at a concrete corpus and query. -/
theorem search_exact_witness :
    "ab".data ∈ search "a".data ("ab\ncd".data) :=
  (search_exact "a".data ("ab\ncd".data)).2.2.1 "ab".data (by decide)
    ⟨[], ['b'], by decide⟩

/-- Claim C2: `search_case_intensive q C` returns exactly the lines of `C`
whose lowercased copy contains the lowercased `q`, in original order, the
returned elements being the original (non-lowercased) corpus lines. -/
theorem search_case_intensive_exact (q C : Str) :
    (search_case_intensive q C).Sublist (lines C) ∧
    (∀ l ∈ search_case_intensive q C, toLowercase q <:+: toLowercase l) ∧
    (∀ l ∈ lines C, toLowercase q <:+: toLowercase l →
      l ∈ search_case_intensive q C) ∧
    (∀ l : Str, toLowercase q <:+: toLowercase l →
      (search_case_intensive q C).count l = (lines C).count l) := by
  refine ⟨List.filter_sublist _, ?_, ?_, ?_⟩
  · intro l hl
    exact (strContains_iff _ _).mp (List.mem_filter.mp hl).2
  · intro l hl hq
    exact List.mem_filter.mpr ⟨hl, (strContains_iff _ _).mpr hq⟩
  · intro l hq
    exact List.count_filter ((strContains_iff _ _).mpr hq)

/-- Witness for C2 at a concrete corpus and query: the returned element is
the original uppercase line. -/
theorem search_case_intensive_exact_witness :
    "AB".data ∈ search_case_intensive "aB".data ("AB\ncd".data) :=
  (search_case_intensive_exact "aB".data ("AB\ncd".data)).2.2.1 "AB".data
    (by decide) ⟨[], [], by decide⟩

/-- Claim C3: `Config.build` discards element 0, fails with `MissingQuery`
when element 1 is absent, fails with `MissingFilePath` when element 2 is
absent, and otherwise succeeds with query = element 1 and file path =
element 2, ignoring elements at positions 3 and beyond. -/
theorem config_build_cases (args : List Str) (env : Str → Option Str) :
    (args.length ≤ 1 → Config.build args env = .error .MissingQuery) ∧
    (args.length = 2 → Config.build args env = .error .MissingFilePath) ∧
    (∀ a₀ q fp rest, args = a₀ :: q :: fp :: rest →
      Config.build args env =
        .ok { query := q, file_path := fp,
              ignore_case := (env ignoreCaseKey).isSome }) := by
  obtain _ | ⟨a₀, _ | ⟨q, _ | ⟨fp, rest⟩⟩⟩ := args
  · exact ⟨fun _ => rfl, fun h => by simp at h, fun a q fp r h => by simp at h⟩
  · exact ⟨fun _ => rfl, fun h => by simp at h, fun a q fp r h => by simp at h⟩
  · refine ⟨fun h => by simp at h, fun _ => rfl, fun a q' fp r h => by simp at h⟩
  · refine ⟨fun h => by simp at h, fun h => by simp at h, ?_⟩
    intro a' q' fp' r' h
    rw [h]
    rfl

/-- Witness for C3 at a concrete argument vector with a fourth, ignored
element. -/
theorem config_build_cases_witness :
    Config.build ["prog".data, "needle".data, "file.txt".data, "extra".data]
        (fun _ => none) =
      .ok { query := "needle".data, file_path := "file.txt".data,
            ignore_case := false } :=
  (config_build_cases _ _).2.2 _ _ _ _ rfl

/-- Claim C4: for every environment, the `ignore_case` field of a
successfully built configuration is true iff the variable `IGNORE_CASE`
is set, and `Config.build` never inspects the variable's value: two
environments agreeing on whether `IGNORE_CASE` is set (even with
different values, including the empty string) yield identical results. -/
theorem ignore_case_env (args : List Str) (env env₂ : Str → Option Str) :
    (∀ c : Config, Config.build args env = .ok c →
      (c.ignore_case = true ↔ (env ignoreCaseKey).isSome = true)) ∧
    ((env ignoreCaseKey).isSome = (env₂ ignoreCaseKey).isSome →
      Config.build args env = Config.build args env₂) := by
  obtain _ | ⟨a₀, _ | ⟨q, _ | ⟨fp, rest⟩⟩⟩ := args
  · exact ⟨fun c hc => by simp [Config.build] at hc, fun _ => rfl⟩
  · exact ⟨fun c hc => by simp [Config.build] at hc, fun _ => rfl⟩
  · exact ⟨fun c hc => by simp [Config.build] at hc, fun _ => rfl⟩
  · constructor
    · intro c hc
      have h : Config.mk q fp ((env ignoreCaseKey).isSome) = c :=
        Except.ok.inj hc
      rw [← h]
    · intro h
      simp only [Config.build, List.tail_cons, h]

/-- Witness for C4: an environment where `IGNORE_CASE` holds the value
`0` and one where it holds the empty string produce the same
configuration (both with `ignore_case = true`). -/
theorem ignore_case_env_witness :
    Config.build ["p".data, "q".data, "f".data]
        (fun k => if k = ignoreCaseKey then some "0".data else none) =
      Config.build ["p".data, "q".data, "f".data]
        (fun k => if k = ignoreCaseKey then some [] else none) :=
  (ignore_case_env _ _ _).2 (by decide)

/-- Claim C5: `run` fails with `FileReadError` exactly when the file named
by the configuration cannot be read, producing no output; on a successful
read it dispatches to `search` when `ignore_case` is false and to
`search_case_intensive` when it is true, and returns success with the
matching lines written in order. -/
theorem run_spec (fs : Str → Option Str) (config : Config) :
    (fs config.file_path = none → run fs config = .error .FileReadError) ∧
    (∀ contents, fs config.file_path = some contents →
      run fs config =
        .ok (if config.ignore_case
             then search_case_intensive config.query contents
             else search config.query contents)) := by
  constructor
  · intro h
    simp [run, h]
  · intro contents h
    cases hb : config.ignore_case <;> simp [run, h, hb]

/-- Witness for C5: a concrete one-file file system, exercising both a
successful case-sensitive run and the conclusion's shape. -/
theorem run_spec_witness :
    run (fun _ => some "ab\ncd".data) (Config.mk "a".data "f".data false) =
      .ok (search "a".data "ab\ncd".data) :=
  (run_spec (fun _ => some "ab\ncd".data)
    (Config.mk "a".data "f".data false)).2 "ab\ncd".data rfl

/-- Claim C6: whenever the query contains at least one (cased) ASCII
letter, the case-insensitive search returns at least as many lines as the
case-sensitive one; when the query contains no letters the two searches
return identical results. -/
theorem case_intensive_superset (q C : Str) :
    ((∃ c ∈ q, isAsciiLetter c = true) →
      (search q C).length ≤ (search_case_intensive q C).length) ∧
    ((∀ c ∈ q, isAsciiLetter c = false) →
      search_case_intensive q C = search q C) := by
  constructor
  · intro _
    apply List.Sublist.length_le
    exact List.monotone_filter_right _
      (fun l hl => strContains_mono_lower hl)
  · intro h
    simp only [search, search_case_intensive, toLowercase_eq_self h]
    congr 1
    funext l
    exact strContains_toLowercase h l

/-- Witness for C6: both conjuncts at concrete inputs — a letter query on
a mixed-case corpus, and a digit query. -/
theorem case_intensive_superset_witness :
    (search "a".data "ab\nAB".data).length ≤
        (search_case_intensive "a".data "ab\nAB".data).length ∧
    search_case_intensive "1".data "ab\n12".data =
        search "1".data "ab\n12".data :=
  ⟨(case_intensive_superset "a".data "ab\nAB".data).1
      ⟨'a', by decide, by decide⟩,
    (case_intensive_superset "1".data "ab\n12".data).2 (by decide)⟩

/-- Claim C7: the empty query matches every line, so `search` with the
empty query returns every line of a non-empty corpus unchanged. -/
theorem search_empty_query (C : Str) (_h : C ≠ []) :
    search [] C = lines C := by
  unfold search
  exact List.filter_eq_self.mpr (fun l _ => strContains_nil_needle l)

/-- Witness for C7 at a concrete non-empty corpus. -/
theorem search_empty_query_witness : search [] "a".data = lines "a".data :=
  search_empty_query "a".data (by decide)

/-- Claim C8: the line decomposition splits the corpus at line feeds,
normalizing a carriage-return–line-feed pair away; a corpus without a
trailing newline still yields its final partial line; empty lines are
valid lines; and the empty corpus yields zero lines, so `search` over the
empty corpus returns the empty sequence for every query. -/
theorem lines_decomposition :
    (∀ q : Str, search q [] = []) ∧
    (lines ([] : Str) = []) ∧
    (∀ l rest : Str, '\n' ∉ l → '\r' ∉ l →
      lines (l ++ '\n' :: rest) = l :: lines rest) ∧
    (∀ l rest : Str, '\n' ∉ l →
      lines (l ++ '\r' :: '\n' :: rest) = l :: lines rest) ∧
    (∀ l : Str, l ≠ [] → '\n' ∉ l → lines l = [l]) := by
  refine ⟨fun _ => rfl, rfl, ?_, ?_, lines_keep_last⟩
  · intro l rest hn hr
    rw [lines_append_nl l rest hn, dropLastCr_of_no_cr l hr]
  · intro l rest hn
    have hn' : '\n' ∉ l ++ ['\r'] := by
      intro hmem
      rcases List.mem_append.mp hmem with h1 | h1
      · exact hn h1
      · simp at h1
    have := lines_append_nl (l ++ ['\r']) rest hn'
    rw [List.append_assoc] at this
    simpa [dropLastCr_append_cr] using this

/-- Witness for C8: a concrete corpus with a CRLF line ending and no
trailing newline. -/
theorem lines_decomposition_witness :
    lines ("ab\r\ncd".data) = "ab".data :: lines "cd".data :=
  lines_decomposition.2.2.2.1 "ab".data "cd".data (by decide)

/-- Claim C9: both search functions are total: on every finite query and
corpus they are defined (the embedding's structural recursions always
terminate), produce a result, and never produce a failure value; the
result is no longer than the corpus's line list. -/
theorem search_total (q C : Str) :
    ∃ r₁ r₂ : List Str, search q C = r₁ ∧ search_case_intensive q C = r₂ ∧
      r₁.length ≤ (lines C).length ∧ r₂.length ≤ (lines C).length :=
  ⟨_, _, rfl, rfl, List.length_filter_le _ _, List.length_filter_le _ _⟩

/-- Claim C10: a query containing a line feed can never match, since the
line decomposition produces lines free of line feeds; both searches
return the empty sequence. -/
theorem search_newline_query (q C : Str) (h : '\n' ∈ q) :
    search q C = [] ∧ search_case_intensive q C = [] := by
  constructor
  · unfold search
    rw [List.filter_eq_nil_iff]
    intro l hl hc
    exact mem_lines_no_nl C hl
      (List.Sublist.mem h ((strContains_iff l q).mp hc).sublist)
  · simp only [search_case_intensive]
    rw [List.filter_eq_nil_iff]
    intro l hl hc
    have hinf := (strContains_iff _ _).mp hc
    have h1 : '\n' ∈ toLowercase q :=
      List.mem_map.mpr ⟨'\n', h, by decide⟩
    have h2 : '\n' ∈ toLowercase l := List.Sublist.mem h1 hinf.sublist
    obtain ⟨c, hcl, hceq⟩ := List.mem_map.mp h2
    have hcn : c = '\n' := (toLower_eq_iff (by decide)).mp hceq
    exact mem_lines_no_nl C hl (hcn ▸ hcl)

/-- Witness for C10 at a concrete newline-containing query. -/
theorem search_newline_query_witness :
    search "\n".data "ab\ncd".data = [] ∧
    search_case_intensive "\n".data "ab\ncd".data = [] :=
  search_newline_query "\n".data "ab\ncd".data (by decide)

end Minigrep
